import Mathlib

/-!
Verification of the Lumen localization-key rewriter
(source file `update_localization_keys.py`).

The script keeps a constant table `key_mappings` mapping old localization
keys to replacement display strings.  For every Swift file found under the
`Lumen` directory it replaces, for each table pair in table order, every
occurrence of the literal call text `L("old_key")` and `L('old_key')` by
`L("escaped_new_key")`, where the replacement value has its quote
characters prefixed with a backslash.  The file is written back only when
the content changed; an exception while processing one file is caught,
logged, and does not stop the traversal of the remaining files.

Modelling notes.
* File contents are modelled as `String` / `List Char`.
* The calls `re.sub(pattern, repl, content)` in `update_file` use a
  pattern that denotes a literal string: the parentheses are escaped as
  `\(`, `\)` and the interpolated key consists of `[a-z_]` characters
  only, so the pattern has no active regex metacharacters.  The
  replacement's only backslash sequences are `\"` and `\'`, which
  `re.sub` copies to the output verbatim (they are not template escapes).
  Hence each call is a plain left-to-right non-overlapping literal
  replacement, modelled by `replaceAll` below; Python's `str.replace`
  (used for escaping the value) has the same semantics for a non-empty
  pattern.
* The filesystem is modelled as a map from paths to
  `Except String String`: `.error e` models a file whose processing
  raises an exception with message `e` (for example an unreadable file),
  `.ok c` a readable file with content `c`.  `os.walk` output is
  modelled as the list of `(root, files)` pairs it yields, and
  `os.path.join` as concatenation with a slash.
-/

namespace Lumen

/-- Fuelled literal replacement: one left-to-right pass replacing each
non-overlapping occurrence of `pat` by `repl`.  The fuel makes the
definition structurally recursive; `fuel = s.length` always suffices
because each step consumes at least one character when `pat ≠ []`. -/
def replaceAllF (pat repl : List Char) : Nat → List Char → List Char
  | _, [] => []
  | 0, s => s
  | fuel + 1, c :: cs =>
    if pat.isPrefixOf (c :: cs) then
      repl ++ replaceAllF pat repl fuel (cs.drop (pat.length - 1))
    else
      c :: replaceAllF pat repl fuel cs

/-- Replace every non-overlapping occurrence of `pat` in `s` by `repl`,
scanning left to right: the semantics of `re.sub` with a literal pattern
and of `str.replace`, for a non-empty `pat`. -/
def replaceAll (pat repl s : List Char) : List Char :=
  replaceAllF pat repl s.length s

/-- `s.replace(old, new)` / `re.sub(re-escaped old, new, s)` on strings. -/
def strReplace (s old new : String) : String :=
  String.mk (replaceAll old.data new.data s.data)

/-- The mapping table of the script (lines 7-187), in definition order.
Python 3 dictionaries iterate in insertion order and the literal has no
duplicate keys, so the dict is faithfully a list of pairs. -/
def key_mappings : List (String × String) := [
  ("app_name", "Lumen"),
  ("settings", "Settings"),
  ("done", "Done"),
  ("cancel", "Cancel"),
  ("ok", "OK"),
  ("retry", "Retry"),
  ("continue", "Continue"),
  ("back", "Back"),
  ("next", "Next"),
  ("save", "Save"),
  ("delete", "Delete"),
  ("edit", "Edit"),
  ("close", "Close"),
  ("send", "Send"),
  ("receive", "Receive"),
  ("balance", "Balance"),
  ("payment_history", "Payment History"),
  ("wallet_info", "Wallet Info"),
  ("pending", "Pending"),
  ("completed", "Completed"),
  ("failed", "Failed"),
  ("sent", "Sent"),
  ("received", "Received"),
  ("created", "Created"),
  ("timed_out", "Timed Out"),
  ("refundable", "Refundable"),
  ("refund_pending", "Refund Pending"),
  ("waiting_fee_acceptance", "Waiting Fee Acceptance"),
  ("send_payment", "Send Payment"),
  ("paste_invoice", "Paste Invoice"),
  ("scan_qr", "Scan QR"),
  ("amount", "Amount"),
  ("description", "Description"),
  ("prepare_payment", "Prepare Payment"),
  ("send_now", "Send Now"),
  ("payment_details", "Payment Details"),
  ("fee_details", "Fee Details"),
  ("receive_payment", "Receive Payment"),
  ("create_invoice", "Create invoice"),
  ("invoice_created", "Invoice Created"),
  ("you_receive", "You receive"),
  ("service_fee", "Service fee"),
  ("copy_invoice", "Copy Invoice"),
  ("share_invoice", "Share Invoice"),
  ("filter", "Filter"),
  ("all_payments", "All"),
  ("sent_payments", "Sent"),
  ("received_payments", "Received"),
  ("pending_payments", "Pending"),
  ("completed_payments", "Completed"),
  ("failed_payments", "Failed"),
  ("get_money_back", "Get Money Back"),
  ("money_to_get_back", "Money to Get Back"),
  ("payment_failed", "Payment Failed"),
  ("get_your_money_back", "Get Your Money Back"),
  ("money_sent_successfully", "Money Sent Successfully! \u00F0\u0178\u017D\u2030"),
  ("great", "Great!"),
  ("refund_success_message", "Your money has been sent back to your Bitcoin wallet. It should arrive within the selected timeframe."),
  ("refund_explanation", "These payments didn't go through. Tap 'Get Money Back' to return the funds to your Bitcoin wallet."),
  ("currency", "Currency"),
  ("language", "Language"),
  ("security", "Security"),
  ("about", "About"),
  ("logout", "Logout"),
  ("delete_wallet", "Delete Wallet"),
  ("export_seed", "Export Seed Phrase"),
  ("import_wallet", "Import Wallet"),
  ("search_currencies", "Search currencies..."),
  ("loading_currencies", "Loading currencies..."),
  ("welcome_to_lumen", "Welcome to Lumen!"),
  ("your_wallet_is_ready", "Your Lightning wallet is ready to use"),
  ("start_using_lumen", "Start Using Lumen"),
  ("create_new_wallet", "Create New Wallet"),
  ("import_existing_wallet", "Import Existing Wallet"),
  ("wallet_choice_title", "Choose Wallet Option"),
  ("wallet_choice_subtitle", "Create a new wallet or import an existing one"),
  ("connected", "Connected"),
  ("disconnected", "Disconnected"),
  ("connecting", "Connecting..."),
  ("connection_status", "Connection Status"),
  ("balance_details", "Balance Details"),
  ("total_balance", "Total Balance"),
  ("pending_receive", "Pending Receive"),
  ("pending_send", "Pending Send"),
  ("payment_limits", "Payment Limits"),
  ("loading_limits", "Loading limits..."),
  ("error_loading_limits", "Error loading limits"),
  ("no_limits_loaded", "No limits loaded"),
  ("send_range", "Send Range"),
  ("receive_range", "Receive Range"),
  ("liquid_tip", "Liquid Tip"),
  ("find_bitcoin_places", "Find Bitcoin places near you"),
  ("getting_location", "Getting your location..."),
  ("no_places_nearby", "No Bitcoin places found nearby"),
  ("places_near_you", "%d place%@ to spend bitcoin near you"),
  ("location_required", "Location Required"),
  ("find_bitcoin_places_title", "Find Bitcoin Places Near You"),
  ("location_permission_message", "We use your location to show nearby businesses that accept Bitcoin payments. Your location stays private and is never shared with third parties."),
  ("enable_location", "Enable Location"),
  ("open_settings", "Open Settings"),
  ("lightning_network", "Lightning Network"),
  ("credit_card_fee", "Credit Card (3%)"),
  ("bank_wire_fee", "Bank Wire ($25)"),
  ("recommended", "RECOMMENDED"),
  ("insufficient_funds", "Insufficient funds. You don't have enough sats for this payment."),
  ("payment_expired", "This payment request has expired. Please request a new invoice."),
  ("invalid_payment", "Invalid payment request. Please check the QR code or invoice."),
  ("network_error", "Network error. Please check your internet connection and try again."),
  ("channel_issue", "Lightning channel issue. Please try again in a moment."),
  ("invalid_invoice", "Invalid Lightning invoice. Please check the payment request."),
  ("invalid_amount", "Invalid amount"),
  ("payment_request_expired", "This payment request has expired"),
  ("try_again", "Try Again"),
  ("open_settings_button", "Open Settings"),
  ("got_it", "Got It"),
  ("loading", "Loading..."),
  ("processing", "Processing..."),
  ("please_wait_processing", "Please wait..."),
  ("lumen_payment", "Lumen payment"),
  ("default_description", "Lightning payment"),
  ("sats", "sats"),
  ("bitcoin", "Bitcoin"),
  ("words", "words"),
  ("word", "word"),
  ("now", "now"),
  ("minutes_ago", "%d minutes ago"),
  ("hours_ago", "%d hours ago"),
  ("days_ago", "%d days ago"),
  ("enter_recovery_phrase", "Enter your %d-word recovery phrase"),
  ("word_count", "Word Count:"),
  ("select_word_count", "Select Word Count"),
  ("word_count_question", "How many words does your seed phrase have?"),
  ("paste_seed_phrase", "Paste Seed Phrase"),
  ("paste_confirmation", "Found %d words in clipboard. Paste them into the form?"),
  ("import_wallet_button", "Import Wallet"),
  ("importing_wallet", "Importing Wallet..."),
  ("place_singular", ""),
  ("place_plural", "s"),
]

/-- Line 200: `new_key.replace('"', '\\"').replace("'", "\\'")`. -/
def escaped_new_key (new_key : String) : String :=
  strReplace (strReplace new_key ("\"") ("\\\"")) ("'") ("\\'")

/-- Line 203: the literal text matched by `pattern1 = f'L\\("{old_key}"\\)'`. -/
def pattern1 (old_key : String) : String :=
  ("L(\"") ++ old_key ++ ("\")")

/-- Line 204: the literal text matched by `pattern2 = f"L\\('{old_key}'\\)"`. -/
def pattern2 (old_key : String) : String :=
  ("L('") ++ old_key ++ ("')")

/-- Line 206: `replacement = f'L("{escaped_new_key}")'`. -/
def replacementFor (new_key : String) : String :=
  ("L(\"") ++ escaped_new_key new_key ++ ("\")")

/-- Lines 198-209 of `update_file`: the pure content transformation --
for each `(old_key, new_key)` pair in table order, substitute both the
double-quoted and the single-quoted call pattern. -/
def update_content (content : String) : String :=
  key_mappings.foldl
    (fun content kv =>
      strReplace
        (strReplace content (pattern1 kv.1) (replacementFor kv.2))
        (pattern2 kv.1) (replacementFor kv.2))
    content

/-- List-of-characters form of the call patterns: `mkPat d k` is
`L(` ++ `d` ++ k ++ `d` ++ `)` for a quote character `d`. -/
def mkPat (d : Char) (k : List Char) : List Char :=
  'L' :: '(' :: d :: (k ++ [d, ')'])

/-- List-of-characters form of the replacement text `L("v")`. -/
def mkRepl (v : List Char) : List Char :=
  'L' :: '(' :: '"' :: (v ++ ['"', ')'])

/-- Character-level form of `escaped_new_key`. -/
def escapeL (v : List Char) : List Char :=
  replaceAll [ '\''] [ '\\', '\''] (replaceAll [ '"'] [ '\\', '"'] v)

/-- Character-level form of one table step of `update_content`. -/
def stepL (content : List Char) (kv : List Char × List Char) : List Char :=
  replaceAll (mkPat '\'' kv.1) (mkRepl (escapeL kv.2))
    (replaceAll (mkPat '"' kv.1) (mkRepl (escapeL kv.2)) content)

/-- The table with contents as character lists. -/
def tableL : List (List Char × List Char) :=
  key_mappings.map (fun kv => (kv.1.data, kv.2.data))

/-- Character-level form of `update_content`. -/
def updateL (content : List Char) : List Char :=
  tableL.foldl stepL content

/-- A text in which no call pattern of any table key occurs, in either
quoting style: such text is never touched by the rewriter. -/
def PatFree (x : List Char) : Prop :=
  ∀ kv ∈ tableL, ¬ mkPat '"' kv.1 <:+: x ∧ ¬ mkPat '\'' kv.1 <:+: x

/-- Lines 191-218: `update_file`, over the modelled filesystem.  Returns
the new filesystem and the list of printed lines.  A file whose state is
`.error e` models a read (or write) that raises; the body catches the
exception and prints `Error updating <path>: <message>`.  Otherwise the
file is rewritten only if the content changed, printing
`Updated: <path>`. -/
def update_file (fs : String → Except String String) (filepath : String) :
    (String → Except String String) × List String :=
  match fs filepath with
  | Except.error e => (fs, [("Error updating ") ++ filepath ++ (": ") ++ e])
  | Except.ok content =>
      let newContent := update_content content
      if newContent ≠ content then
        (fun p => if p = filepath then Except.ok newContent else fs p,
         [("Updated: ") ++ filepath])
      else
        (fs, [])

/-- Sequential processing of a list of file paths, threading the
filesystem and accumulating the printed lines in order. -/
def processFiles (fs : String → Except String String) (paths : List String) :
    (String → Except String String) × List String :=
  paths.foldl (fun acc p =>
    let r := update_file acc.1 p
    (r.1, acc.2 ++ r.2)) (fs, [])

/-- Python's `str.endswith`. -/
def endswith (s suf : String) : Bool :=
  suf.data.isSuffixOf s.data

/-- Lines 224-228 of `main`: from the walk output, the paths on which
`update_file` is invoked -- exactly the names ending in `.swift`,
joined to their root. -/
def selectedPaths (walkOutput : List (String × List String)) : List String :=
  walkOutput.flatMap (fun rd =>
    (rd.2.filter (fun f => endswith f (".swift"))).map
      (fun f => rd.1 ++ ("/") ++ f))

/-- The whole run of `main` over a modelled tree. -/
def main_run (fs : String → Except String String)
    (walkOutput : List (String × List String)) :
    (String → Except String String) × List String :=
  processFiles fs (selectedPaths walkOutput)

/-- A character allowed in an old key: lowercase letter or underscore. -/
def keyChar (c : Char) : Bool :=
  c.isLower || c == '_'

/-- Boolean check that a key is non-empty and made of `keyChar`s. -/
def keyOk (k : List Char) : Bool :=
  !k.isEmpty && k.all keyChar

/-- Boolean check that every quote character in a list is immediately
preceded by a backslash (a backslash always protects its successor). -/
def escOk : List Char → Bool
  | [] => true
  | c :: cs =>
    if c = '\\' then
      match cs with
      | [] => true
      | _ :: rest => escOk rest
    else
      !(c == '"' || c == '\'') && escOk cs

/-- Boolean check for an occurrence of the two-character text `L(`. -/
def hasLP : List Char → Bool
  | [] => false
  | [_] => false
  | a :: b :: rest => (a == 'L' && b == '(') || hasLP (b :: rest)

/-- Propositional form of `escOk`: every quote occurrence has a
backslash right before it. -/
def EscProp (v : List Char) : Prop :=
  ∀ a c b, v = a ++ c :: b → c = '"' ∨ c = '\'' → ∃ a2, a = a2 ++ [ '\\']

/-- No occurrence of the two-character text `L(`. -/
def NoLP (v : List Char) : Prop :=
  ∀ a b, v ≠ a ++ 'L' :: '(' :: b

/-- Propositional form of `keyOk`. -/
def KeyProp (k : List Char) : Prop :=
  k ≠ [] ∧ ∀ c ∈ k, keyChar c = true

/-- The interaction conditions between a tracked pattern `q` and a
replacement text `r` under which one `replaceAll` pass with replacement
`r` can neither contain nor create an occurrence of `q`. -/
structure RCond (q r : List Char) : Prop where
  notInf : ¬ q <:+: r
  proPre : ∀ y, y ≠ [] → y <+: q → y ≠ q → ¬ y <:+ r
  sufPre : ∀ x, x ≠ [] → x <:+ q → x ≠ q → ¬ x <+: r ∧ ¬ r <+: x
  replPre : ¬ r <+: q

/-- After one full pass, no single-quoted call pattern of any table key
remains, and no double-quoted call pattern of a key whose replacement
value differs from the key itself. -/
def NoResidue (tbl : List (List Char × List Char)) (x : List Char) : Prop :=
  ∀ kv ∈ tbl,
    (¬ mkPat '\'' kv.1 <:+: x) ∧
    (escapeL kv.2 ≠ kv.1 → ¬ mkPat '"' kv.1 <:+: x)

/-- The state transformation `update_file` applies to the state of the
file it processes: an exception is left as it is, readable content is
rewritten by `update_content`. -/
def stepFile : Except String String → Except String String
  | Except.error e => Except.error e
  | Except.ok c => Except.ok (update_content c)

/-- A small concrete tree used to instantiate the theorems about the
filesystem model: one unreadable file among readable ones. -/
def fsW : String → Except String String := fun p =>
  if p = ("Lumen/Bad.swift") then Except.error ("Permission denied")
  else if p = ("Lumen/A.swift") then Except.ok ("L(\"send\")")
  else Except.ok ("no keys here")

/-! ### Basic properties of `replaceAll` -/

theorem replaceAllF_fuel (pat repl : List Char) :
    ∀ f1 f2 s, s.length ≤ f1 → s.length ≤ f2 →
      replaceAllF pat repl f1 s = replaceAllF pat repl f2 s := by
  intro f1
  induction f1 with
  | zero =>
    intro f2 s h1 _
    have hs : s = [] := List.length_eq_zero.mp (Nat.le_zero.mp h1)
    subst hs
    cases f2 <;> rfl
  | succ n ih =>
    intro f2 s h1 h2
    cases s with
    | nil => cases f2 <;> rfl
    | cons c cs =>
      cases f2 with
      | zero => simp at h2
      | succ m =>
        simp only [replaceAllF]
        by_cases hp : pat.isPrefixOf (c :: cs) = true
        · rw [if_pos hp, if_pos hp]
          have hlen : (cs.drop (pat.length - 1)).length ≤ cs.length := by
            rw [List.length_drop]; omega
          have hn : cs.length ≤ n := by simpa using h1
          have hm : cs.length ≤ m := by simpa using h2
          rw [ih m (cs.drop (pat.length - 1)) (by omega) (by omega)]
        · rw [if_neg hp, if_neg hp]
          have hn : cs.length ≤ n := by simpa using h1
          have hm : cs.length ≤ m := by simpa using h2
          rw [ih m cs hn hm]

theorem replaceAll_cons_neg {pat : List Char} (repl : List Char) {c : Char}
    {cs : List Char} (h : ¬ pat <+: c :: cs) :
    replaceAll pat repl (c :: cs) = c :: replaceAll pat repl cs := by
  have hb : ¬ pat.isPrefixOf (c :: cs) = true := by
    rw [ List.isPrefixOf_iff_prefix]; exact h
  show replaceAllF pat repl ((c :: cs).length) (c :: cs) = _
  rw [List.length_cons]
  simp only [replaceAllF]
  rw [if_neg hb]
  rfl

theorem replaceAll_head {pat : List Char} (repl : List Char) (hpat : pat ≠ [])
    (t : List Char) :
    replaceAll pat repl (pat ++ t) = repl ++ replaceAll pat repl t := by
  obtain ⟨c, p', rfl⟩ := List.exists_cons_of_ne_nil hpat
  have hb : (c :: p').isPrefixOf (c :: (p' ++ t)) = true := by
    rw [ List.isPrefixOf_iff_prefix]
    exact ⟨t, rfl⟩
  show replaceAllF _ _ ((c :: (p' ++ t)).length) (c :: (p' ++ t)) = _
  rw [List.length_cons]
  simp only [replaceAllF]
  rw [if_pos hb]
  have hd : (p' ++ t).drop ((c :: p').length - 1) = t := by
    rw [List.length_cons, Nat.succ_sub_one]
    exact List.drop_left p' t
  rw [hd]
  have hf : replaceAllF (c :: p') repl ((p' ++ t).length) t
      = replaceAllF (c :: p') repl (t.length) t := by
    apply replaceAllF_fuel
    · rw [List.length_append]; omega
    · exact Nat.le_refl _
  rw [hf]
  rfl

theorem replaceAll_self {pat : List Char} (hpat : pat ≠ []) :
    ∀ n s, s.length ≤ n → replaceAll pat pat s = s := by
  intro n
  induction n with
  | zero =>
    intro s h
    have hs : s = [] := List.length_eq_zero.mp (Nat.le_zero.mp h)
    subst hs; rfl
  | succ n ih =>
    intro s h
    by_cases hp : pat <+: s
    · obtain ⟨t, rfl⟩ := hp
      rw [replaceAll_head pat hpat t, ih t ?_]
      have := List.length_pos.mpr hpat
      rw [List.length_append] at h
      omega
    · cases s with
      | nil => rfl
      | cons c cs =>
        rw [replaceAll_cons_neg _ hp, ih cs (by simpa using h)]

theorem replaceAll_noocc {pat repl : List Char} :
    ∀ n s, s.length ≤ n → ¬ pat <:+: s → replaceAll pat repl s = s := by
  intro n
  induction n with
  | zero =>
    intro s h _
    have hs : s = [] := List.length_eq_zero.mp (Nat.le_zero.mp h)
    subst hs; rfl
  | succ n ih =>
    intro s h hocc
    cases s with
    | nil => rfl
    | cons c cs =>
      have hp : ¬ pat <+: c :: cs := by
        intro hp
        exact hocc hp.isInfix
      rw [replaceAll_cons_neg _ hp, ih cs (by simpa using h)]
      intro hi
      exact hocc (List.infix_cons hi)

/-! ### Decomposing prefixes and infixes of an append -/

theorem append_pref_split {q a b : List Char} (h : q <+: a ++ b) :
    q <+: a ∨ ∃ z, q = a ++ z ∧ z <+: b := by
  induction a generalizing q with
  | nil => exact Or.inr ⟨q, rfl, h⟩
  | cons x a ih =>
    rcases List.prefix_cons_iff.mp h with h0 | ⟨t, rfl, ht⟩
    · subst h0; exact Or.inl List.nil_prefix
    · rcases ih ht with h1 | ⟨z, rfl, hz⟩
      · exact Or.inl (List.cons_prefix_cons.mpr ⟨rfl, h1⟩)
      · exact Or.inr ⟨z, rfl, hz⟩

theorem append_inf_split {q a b : List Char} (h : q <:+: a ++ b) :
    q <:+: a ∨ q <:+: b ∨
      ∃ y z, y ++ z = q ∧ y ≠ [] ∧ z ≠ [] ∧ y <:+ a ∧ z <+: b := by
  induction a generalizing q with
  | nil => exact Or.inr (Or.inl h)
  | cons x a ih =>
    have h' : q <:+: x :: (a ++ b) := by simpa using h
    rcases List.infix_cons_iff.mp h' with hpre | hinf
    · rcases List.prefix_cons_iff.mp hpre with h0 | ⟨t, rfl, ht⟩
      · subst h0; exact Or.inl List.nil_infix
      · rcases append_pref_split ht with h1 | ⟨z, rfl, hz⟩
        · exact Or.inl (List.cons_prefix_cons.mpr ⟨rfl, h1⟩).isInfix
        · rcases eq_or_ne z [] with rfl | hzne
          · refine Or.inl ?_
            simp
          · refine Or.inr (Or.inr ⟨x :: a, z, rfl, by simp, hzne, List.suffix_refl _, hz⟩)
    · rcases ih hinf with h1 | h2 | ⟨y, z, hyz, hy, hz, hys, hzp⟩
      · exact Or.inl (List.infix_cons h1)
      · exact Or.inr (Or.inl h2)
      · exact Or.inr (Or.inr ⟨y, z, hyz, hy, hz, hys.trans (List.suffix_cons x a), hzp⟩)

/-! ### A `replaceAll` pass neither keeps nor creates a tracked pattern

`starAux`: under `RCond q r`, a non-empty suffix of `q` that is a prefix
of the output of a pass was already a prefix of the input.  `noCreate`:
a pass cannot create an occurrence of `q`.  `noPat`: after replacing
`pat` the output has no occurrence of `pat` itself. -/

theorem starAux {pat r q : List Char} (hpat : pat ≠ []) (hc : RCond q r) :
    ∀ n s x, s.length ≤ n → x ≠ [] → x <:+ q →
      x <+: replaceAll pat r s → x <+: s := by
  intro n
  induction n with
  | zero =>
    intro s x hs hx _ hpre
    have hsnil : s = [] := List.length_eq_zero.mp (Nat.le_zero.mp hs)
    subst hsnil
    exact absurd (List.prefix_nil.mp hpre) hx
  | succ n ih =>
    intro s x hs hx hxq hpre
    by_cases hp : pat <+: s
    · obtain ⟨t, rfl⟩ := hp
      rw [replaceAll_head r hpat t] at hpre
      rcases append_pref_split hpre with h1 | ⟨z, rfl, hz⟩
      · rcases eq_or_ne x q with rfl | hne
        · exact absurd h1.isInfix hc.notInf
        · exact absurd h1 (hc.sufPre x hx hxq hne).1
      · have hrx : r <+: r ++ z := ⟨z, rfl⟩
        rcases eq_or_ne (r ++ z) q with heq | hne
        · exact absurd (heq ▸ hrx) hc.replPre
        · exact absurd hrx (hc.sufPre _ hx hxq hne).2
    · cases s with
      | nil => exact absurd (List.prefix_nil.mp hpre) hx
      | cons c cs =>
        rw [replaceAll_cons_neg r hp] at hpre
        rcases List.prefix_cons_iff.mp hpre with h0 | ⟨t, rfl, ht⟩
        · exact absurd h0 hx
        · rcases eq_or_ne t [] with rfl | htne
          · exact List.cons_prefix_cons.mpr ⟨rfl, List.nil_prefix⟩
          · have htq : t <:+ q := (List.suffix_cons c t).trans hxq
            have hres := ih cs t (by simpa using hs) htne htq ht
            exact List.cons_prefix_cons.mpr ⟨rfl, hres⟩

theorem noCreate {pat r q : List Char} (hpat : pat ≠ []) (hq : q ≠ [])
    (hc : RCond q r) :
    ∀ n s, s.length ≤ n → ¬ q <:+: s → ¬ q <:+: replaceAll pat r s := by
  intro n
  induction n with
  | zero =>
    intro s hs _ h
    have hsnil : s = [] := List.length_eq_zero.mp (Nat.le_zero.mp hs)
    subst hsnil
    exact hq (List.infix_nil.mp h)
  | succ n ih =>
    intro s hs hocc h
    by_cases hp : pat <+: s
    · obtain ⟨t, rfl⟩ := hp
      rw [replaceAll_head r hpat t] at h
      have hocct : ¬ q <:+: t := fun hi => hocc (hi.trans ⟨pat, [], by simp⟩)
      have hlt : t.length ≤ n := by
        have h1 : 1 ≤ pat.length := List.length_pos.mpr hpat
        rw [List.length_append] at hs
        omega
      rcases append_inf_split h with h1 | h2 | ⟨y, z, hyz, hy, hz, hys, _⟩
      · exact hc.notInf h1
      · exact ih t hlt hocct h2
      · have hypre : y <+: q := ⟨z, hyz⟩
        have hyne : y ≠ q := by
          intro h'
          apply hz
          have hlen := congrArg List.length hyz
          rw [h', List.length_append] at hlen
          have : z.length = 0 := by omega
          exact List.length_eq_zero.mp this
        exact hc.proPre y hy hypre hyne hys
    · cases s with
      | nil => exact hq (List.infix_nil.mp h)
      | cons c cs =>
        rw [replaceAll_cons_neg r hp] at h
        have hocc' : ¬ q <:+: cs := fun hi => hocc (List.infix_cons hi)
        rcases List.infix_cons_iff.mp h with hpre | hinf
        · rcases List.prefix_cons_iff.mp hpre with h0 | ⟨t, rfl, ht⟩
          · exact hq h0
          · rcases eq_or_ne t [] with rfl | htne
            · exact hocc (List.cons_prefix_cons.mpr ⟨rfl, List.nil_prefix⟩).isInfix
            · have htq : t <:+ c :: t := List.suffix_cons c t
              have hres := starAux hpat hc cs.length cs t (Nat.le_refl _) htne htq ht
              exact hocc (List.cons_prefix_cons.mpr ⟨rfl, hres⟩).isInfix
        · exact ih cs (by simpa using hs) hocc' hinf

theorem noPat {pat r : List Char} (hpat : pat ≠ []) (hc : RCond pat r) :
    ∀ n s, s.length ≤ n → ¬ pat <:+: replaceAll pat r s := by
  intro n
  induction n with
  | zero =>
    intro s hs h
    have hsnil : s = [] := List.length_eq_zero.mp (Nat.le_zero.mp hs)
    subst hsnil
    exact hpat (List.infix_nil.mp h)
  | succ n ih =>
    intro s hs h
    by_cases hp : pat <+: s
    · obtain ⟨t, rfl⟩ := hp
      rw [replaceAll_head r hpat t] at h
      have hlt : t.length ≤ n := by
        have h1 : 1 ≤ pat.length := List.length_pos.mpr hpat
        rw [List.length_append] at hs
        omega
      rcases append_inf_split h with h1 | h2 | ⟨y, z, hyz, hy, hz, hys, _⟩
      · exact hc.notInf h1
      · exact ih t hlt h2
      · have hypre : y <+: pat := ⟨z, hyz⟩
        have hyne : y ≠ pat := by
          intro h'
          apply hz
          have hlen := congrArg List.length hyz
          rw [h', List.length_append] at hlen
          have : z.length = 0 := by omega
          exact List.length_eq_zero.mp this
        exact hc.proPre y hy hypre hyne hys
    · cases s with
      | nil => exact hpat (List.infix_nil.mp h)
      | cons c cs =>
        rw [replaceAll_cons_neg r hp] at h
        rcases List.infix_cons_iff.mp h with hpre | hinf
        · rcases List.prefix_cons_iff.mp hpre with h0 | ⟨t, hpq, ht⟩
          · exact hpat h0
          · rcases eq_or_ne t [] with rfl | htne
            · exact hp (by rw [hpq]; exact List.cons_prefix_cons.mpr ⟨rfl, List.nil_prefix⟩)
            · have htq : t <:+ pat := by
                rw [hpq]; exact List.suffix_cons c t
              have hres := starAux hpat hc cs.length cs t (Nat.le_refl _) htne htq ht
              exact hp (by rw [hpq]; exact List.cons_prefix_cons.mpr ⟨rfl, hres⟩)
        · exact ih cs (by simpa using hs) hinf

/-! ### The interaction conditions hold for the table's shapes -/

theorem not_mem_of_keyProp {k : List Char} (hk : KeyProp k) {c : Char}
    (hc : keyChar c = false) : c ∉ k := by
  intro hm
  rw [hk.2 c hm] at hc
  cases hc

theorem mem_patTail_ne_L {d : Char} (hd : d = '"' ∨ d = '\'') {k : List Char}
    (hk : KeyProp k) {c : Char} (hc : c ∈ '(' :: d :: (k ++ [d, ')'])) :
    c ≠ 'L' := by
  intro hcl
  subst hcl
  rcases List.mem_cons.mp hc with h1 | h2
  · exact absurd h1 (by decide)
  rcases List.mem_cons.mp h2 with h3 | h4
  · rcases hd with rfl | rfl <;> exact absurd h3 (by decide)
  rcases List.mem_append.mp h4 with h5 | h6
  · exact absurd (hk.2 _ h5) (by decide)
  · rcases hd with rfl | rfl <;> exact absurd h6 (by decide)

theorem mkPat_sufPre {d : Char} (hd : d = '"' ∨ d = '\'') {k v : List Char}
    (hk : KeyProp k) :
    ∀ x, x ≠ [] → x <:+ mkPat d k → x ≠ mkPat d k →
      ¬ x <+: mkRepl v ∧ ¬ mkRepl v <+: x := by
  intro x hx hxq hne
  have hxtail : x <:+ '(' :: d :: (k ++ [d, ')']) := by
    rcases List.suffix_cons_iff.mp hxq with h | h
    · exact absurd h hne
    · exact h
  obtain ⟨c, x', rfl⟩ := List.exists_cons_of_ne_nil hx
  have hcmem : c ∈ '(' :: d :: (k ++ [d, ')']) :=
    hxtail.subset (List.mem_cons_self c x')
  have hcne : c ≠ 'L' := mem_patTail_ne_L hd hk hcmem
  constructor
  · intro hpre
    exact hcne (List.cons_prefix_cons.mp hpre).1
  · intro hpre
    exact hcne (List.cons_prefix_cons.mp hpre).1.symm

theorem mkPat_concat (d : Char) (k : List Char) :
    mkPat d k = ('L' :: '(' :: d :: (k ++ [d])) ++ [')'] := by
  simp [mkPat]

theorem mkRepl_concat (v : List Char) :
    mkRepl v = ('L' :: '(' :: '"' :: (v ++ ['"'])) ++ [')'] := by
  simp [mkRepl]

theorem mkPat_proPre {d : Char} (hd : d = '"' ∨ d = '\'') {k v : List Char}
    (hk : KeyProp k) :
    ∀ y, y ≠ [] → y <+: mkPat d k → y ≠ mkPat d k → ¬ y <:+ mkRepl v := by
  intro y hy hpre hne hsuf
  obtain ⟨w, hw⟩ := hsuf
  obtain ⟨y0, cy, rfl⟩ : ∃ y0 c, y = y0 ++ [c] := by
    rcases List.eq_nil_or_concat y with rfl | ⟨y0, c, hc⟩
    · exact absurd rfl hy
    · exact ⟨y0, c, by simpa [List.concat_eq_append] using hc⟩
  rw [mkRepl_concat, ← List.append_assoc] at hw
  have hinj := List.append_inj' hw (by simp)
  have hcy : cy = ')' := by simpa using hinj.2
  subst hcy
  obtain ⟨z, hz⟩ := hpre
  have hzne : z ≠ [] := by
    rintro rfl
    exact hne (by simpa using hz)
  obtain ⟨z0, cz, rfl⟩ : ∃ z0 c, z = z0 ++ [c] := by
    rcases List.eq_nil_or_concat z with rfl | ⟨z0, c, hc⟩
    · exact absurd rfl hzne
    · exact ⟨z0, c, by simpa [List.concat_eq_append] using hc⟩
  rw [mkPat_concat, ← List.append_assoc] at hz
  have hinj2 := List.append_inj' hz (by simp)
  have hmem : ')' ∈ 'L' :: '(' :: d :: (k ++ [d]) := by
    rw [← hinj2.1]; simp
  rcases List.mem_cons.mp hmem with h1 | h2
  · exact absurd h1 (by decide)
  rcases List.mem_cons.mp h2 with h3 | h4
  · exact absurd h3 (by decide)
  rcases List.mem_cons.mp h4 with h5 | h6
  · rcases hd with rfl | rfl <;> exact absurd h5 (by decide)
  rcases List.mem_append.mp h6 with h7 | h8
  · exact absurd (hk.2 _ h7) (by decide)
  · rcases hd with rfl | rfl <;> exact absurd h8 (by decide)

theorem mkPat_replPre {d : Char} {k v : List Char}
    (hk : KeyProp k) (hne : d = '\'' ∨ k ≠ v) :
    ¬ mkRepl v <+: mkPat d k := by
  intro hpre
  simp only [mkRepl, mkPat] at hpre
  have h1 := List.cons_prefix_cons.mp hpre
  have h2 := List.cons_prefix_cons.mp h1.2
  have h3 := List.cons_prefix_cons.mp h2.2
  have hdq : d = '"' := h3.1.symm
  rcases hne with rfl | hkv
  · exact absurd hdq (by decide)
  subst hdq
  obtain ⟨z, hz⟩ := h3.2
  rw [List.append_assoc] at hz
  rcases List.append_eq_append_iff.mp hz with ⟨m, hm1, hm2⟩ | ⟨m, hm1, hm2⟩
  · cases m with
    | nil => exact hkv (by simpa using hm1)
    | cons cm m' =>
      simp only [List.cons_append] at hm2
      injection hm2 with ha _
      subst ha
      have hq : '"' ∈ k := by rw [hm1]; simp
      exact absurd (hk.2 _ hq) (by decide)
  · have hlen := congrArg List.length hm2
    simp [List.length_append] at hlen
    have hm0 : m = [] := List.length_eq_zero.mp (by omega)
    subst hm0
    have hvk : v = k := by simpa using hm1
    exact hkv hvk.symm

theorem mkPat_notInf {d : Char} {k v : List Char}
    (hk : KeyProp k) (hesc : EscProp v) (hlp : NoLP v)
    (hne : d = '\'' ∨ k ≠ v) : ¬ mkPat d k <:+: mkRepl v := by
  rintro ⟨a, b, hab⟩
  cases a with
  | nil =>
    simp only [List.nil_append, mkPat, mkRepl, List.cons_append] at hab
    injection hab with _ hab
    injection hab with _ hab
    injection hab with hdq hab
    rcases hne with rfl | hkv
    · exact absurd hdq (by decide)
    subst hdq
    rw [List.append_assoc] at hab
    rcases List.append_eq_append_iff.mp hab with ⟨m, hm1, hm2⟩ | ⟨m, hm1, hm2⟩
    · cases m with
      | nil =>
        have hv : v = k := by simpa using hm1
        exact hkv hv.symm
      | cons cm m' =>
        simp only [List.cons_append] at hm2
        injection hm2 with ha _
        subst ha
        obtain ⟨a2, ha2⟩ := hesc k '"' m' hm1 (Or.inl rfl)
        have hbs : '\\' ∈ k := by rw [ha2]; simp
        exact absurd (hk.2 _ hbs) (by decide)
    · have hlen := congrArg List.length hm2
      simp [List.length_append] at hlen
      have hm0 : m = [] := List.length_eq_zero.mp (by omega)
      subst hm0
      have hkv2 : k = v := by simpa using hm1
      exact hkv hkv2
  | cons c a1 =>
    simp only [mkRepl, List.cons_append, List.append_assoc] at hab
    injection hab with hc hab
    cases a1 with
    | nil =>
      simp only [List.nil_append, mkPat, List.cons_append] at hab
      injection hab with h1 _
      exact absurd h1 (by decide)
    | cons c2 a2 =>
      simp only [List.cons_append] at hab
      injection hab with hc2 hab
      cases a2 with
      | nil =>
        simp only [List.nil_append, mkPat, List.cons_append] at hab
        injection hab with h1 _
        exact absurd h1 (by decide)
      | cons c3 a3 =>
        simp only [List.cons_append] at hab
        injection hab with hc3 hab
        simp only [mkPat, List.cons_append] at hab
        rcases List.append_eq_append_iff.mp hab with ⟨m, hm1, hm2⟩ | ⟨m, hm1, hm2⟩
        · cases m with
          | nil =>
            simp only [List.nil_append] at hm2
            injection hm2 with h1 _
            exact absurd h1 (by decide)
          | cons cm m' =>
            simp only [List.cons_append] at hm2
            injection hm2 with h1 hm2'
            cases m' with
            | nil =>
              simp only [List.nil_append] at hm2'
              injection hm2' with h2 _
              exact absurd h2 (by decide)
            | cons cm2 m'' =>
              simp only [List.cons_append] at hm2'
              injection hm2' with h2 _
              subst h1
              subst h2
              exact hlp a3 m'' hm1
        · have hlen := congrArg List.length hm2
          simp [List.length_append] at hlen
          omega

/-- Packaging: the interaction conditions hold between any tracked call
pattern and any replacement text built from the table, given the
structural facts about keys and escaped values. -/
theorem rcond_of {d : Char} (hd : d = '"' ∨ d = '\'') {k v : List Char}
    (hk : KeyProp k) (hesc : EscProp v) (hlp : NoLP v)
    (hne : d = '\'' ∨ k ≠ v) : RCond (mkPat d k) (mkRepl v) :=
  ⟨mkPat_notInf hk hesc hlp hne, mkPat_proPre hd hk,
   mkPat_sufPre hd hk, mkPat_replPre hk hne⟩

theorem mkPat_ne_nil (d : Char) (k : List Char) : mkPat d k ≠ [] := by
  simp [mkPat]

/-! ### From the executable checks to the structural facts -/

theorem keyProp_of_keyOk {k : List Char} (h : keyOk k = true) : KeyProp k := by
  rw [keyOk, Bool.and_eq_true] at h
  obtain ⟨h1, h2⟩ := h
  refine ⟨?_, ?_⟩
  · simpa using h1
  · intro c hc
    exact List.all_eq_true.mp h2 c hc

theorem escOk_cons (x : Char) (cs : List Char) :
    escOk (x :: cs) =
      if x = '\\' then
        (match cs with
          | [] => true
          | _ :: rest => escOk rest)
      else (!(x == '"' || x == '\'') && escOk cs) := by
  rw [escOk.eq_def]

theorem escProp_of_escOk : ∀ n v, v.length ≤ n → escOk v = true → EscProp v := by
  intro n
  induction n with
  | zero =>
    intro v hv _ a c b hdec _
    have hvnil : v = [] := List.length_eq_zero.mp (Nat.le_zero.mp hv)
    subst hvnil
    cases a <;> simp at hdec
  | succ n ih =>
    intro v hv hesc a c b hdec hq
    cases v with
    | nil => cases a <;> simp at hdec
    | cons x cs =>
      by_cases hx : x = '\\'
      · subst hx
        cases cs with
        | nil =>
          cases a with
          | nil =>
            injection hdec with h1 _
            rcases hq with rfl | rfl <;> exact absurd h1 (by decide)
          | cons y a2 =>
            injection hdec with _ h2
            cases a2 <;> simp at h2
        | cons z rest =>
          have hesc2 : escOk rest = true := by simpa [escOk] using hesc
          cases a with
          | nil =>
            injection hdec with h1 _
            rcases hq with rfl | rfl <;> exact absurd h1 (by decide)
          | cons y a2 =>
            injection hdec with hy hdec2
            cases a2 with
            | nil =>
              refine ⟨[], ?_⟩
              rw [← hy]
              rfl
            | cons w a3 =>
              injection hdec2 with hz hdec3
              have hlen : rest.length ≤ n := by
                simp at hv
                omega
              obtain ⟨a4, ha4⟩ := ih rest hlen hesc2 a3 c b hdec3 hq
              refine ⟨y :: w :: a4, ?_⟩
              rw [ha4]
              simp
      · have hx2 : (x = '"' ∨ x = '\'') = False ∧ escOk cs = true := by
          rw [escOk_cons, if_neg hx, Bool.and_eq_true] at hesc
          constructor
          · simp only [eq_iff_iff, iff_false]
            intro hor
            rcases hor with rfl | rfl <;> simp at hesc
          · exact hesc.2
        cases a with
        | nil =>
          injection hdec with h1 _
          rw [h1] at hx2
          exact (hx2.1.mp hq).elim
        | cons y a2 =>
          injection hdec with hy hdec2
          have hlen : cs.length ≤ n := by
            simp at hv
            omega
          obtain ⟨a4, ha4⟩ := ih cs hlen hx2.2 a2 c b hdec2 hq
          refine ⟨y :: a4, ?_⟩
          rw [ha4]
          simp

theorem noLP_of_hasLP : ∀ n v, v.length ≤ n → hasLP v = false → NoLP v := by
  intro n
  induction n with
  | zero =>
    intro v hv _ a b habs
    have hvnil : v = [] := List.length_eq_zero.mp (Nat.le_zero.mp hv)
    subst hvnil
    cases a <;> simp at habs
  | succ n ih =>
    intro v hv h a b habs
    cases v with
    | nil => cases a <;> simp at habs
    | cons x cs =>
      cases cs with
      | nil =>
        have hlen := congrArg List.length habs
        simp [List.length_append] at hlen
        omega
      | cons y rest =>
        have h1 : ((x = 'L' ∧ y = '(') = False) ∧ hasLP (y :: rest) = false := by
          rw [hasLP, Bool.or_eq_false_iff, Bool.and_eq_false_iff] at h
          constructor
          · simp only [eq_iff_iff, iff_false]
            rintro ⟨rfl, rfl⟩
            rcases h.1 with hL | hP
            · simp at hL
            · simp at hP
          · exact h.2
        cases a with
        | nil =>
          injection habs with hx habs2
          injection habs2 with hy _
          exact h1.1.mp ⟨hx, hy⟩
        | cons z a2 =>
          injection habs with hz habs2
          have hlen : (y :: rest).length ≤ n := by
            simp at hv ⊢
            omega
          exact ih (y :: rest) hlen h1.2 a2 b habs2

/-! ### One pass establishes and preserves the no-residue invariant -/

theorem step_noCreate {d : Char} (hd : d = '"' ∨ d = '\'') {k2 : List Char}
    (hk2 : KeyProp k2) {kv : List Char × List Char}
    (hesc : EscProp (escapeL kv.2)) (hlp : NoLP (escapeL kv.2))
    (hne : d = '\'' ∨ k2 ≠ escapeL kv.2)
    {x : List Char} (h : ¬ mkPat d k2 <:+: x) :
    ¬ mkPat d k2 <:+: stepL x kv := by
  unfold stepL
  have hcond : RCond (mkPat d k2) (mkRepl (escapeL kv.2)) :=
    rcond_of hd hk2 hesc hlp hne
  apply noCreate (mkPat_ne_nil '\'' kv.1) (mkPat_ne_nil d k2) hcond _ _ (Nat.le_refl _)
  exact noCreate (mkPat_ne_nil '"' kv.1) (mkPat_ne_nil d k2) hcond _ _ (Nat.le_refl _) h

theorem step_establishP2 {kv : List Char × List Char} (hk : KeyProp kv.1)
    (hesc : EscProp (escapeL kv.2)) (hlp : NoLP (escapeL kv.2)) (x : List Char) :
    ¬ mkPat '\'' kv.1 <:+: stepL x kv := by
  unfold stepL
  exact noPat (mkPat_ne_nil '\'' kv.1)
    (rcond_of (Or.inr rfl) hk hesc hlp (Or.inl rfl)) _ _ (Nat.le_refl _)

theorem step_establishP1 {kv : List Char × List Char} (hk : KeyProp kv.1)
    (hesc : EscProp (escapeL kv.2)) (hlp : NoLP (escapeL kv.2))
    (hne : escapeL kv.2 ≠ kv.1) (x : List Char) :
    ¬ mkPat '"' kv.1 <:+: stepL x kv := by
  unfold stepL
  have hcond : RCond (mkPat '"' kv.1) (mkRepl (escapeL kv.2)) :=
    rcond_of (Or.inl rfl) hk hesc hlp (Or.inr (Ne.symm hne))
  apply noCreate (mkPat_ne_nil '\'' kv.1) (mkPat_ne_nil '"' kv.1) hcond _ _ (Nat.le_refl _)
  exact noPat (mkPat_ne_nil '"' kv.1) hcond _ _ (Nat.le_refl _)

theorem pass1 (all : List (List Char × List Char))
    (hK : ∀ kv ∈ all, KeyProp kv.1)
    (hE : ∀ kv ∈ all, EscProp (escapeL kv.2))
    (hL : ∀ kv ∈ all, NoLP (escapeL kv.2))
    (hNE : ∀ kv ∈ all, ∀ kv2 ∈ all, escapeL kv.2 ≠ kv.1 → escapeL kv2.2 ≠ kv.1) :
    ∀ tbl done x, done ++ tbl = all → NoResidue done x →
      NoResidue all (tbl.foldl stepL x) := by
  intro tbl
  induction tbl with
  | nil =>
    intro done x hall hres
    rw [List.foldl_nil]
    rw [List.append_nil] at hall
    rw [← hall]
    exact hres
  | cons kv tbl2 ih =>
    intro done x hall hres
    have hkv : kv ∈ all := by
      rw [← hall]; simp
    have hep := hE kv hkv
    have hlp := hL kv hkv
    rw [List.foldl_cons]
    have hstep : NoResidue (done ++ [kv]) (stepL x kv) := by
      intro kv2 hm
      rcases List.mem_append.mp hm with hm1 | hm2
      · have hkv2 : kv2 ∈ all := by
          rw [← hall]
          exact List.mem_append_left _ hm1
        obtain ⟨hA, hB⟩ := hres kv2 hm1
        constructor
        · exact step_noCreate (Or.inr rfl) (hK kv2 hkv2) hep hlp (Or.inl rfl) hA
        · intro htr
          have hne2 : kv2.1 ≠ escapeL kv.2 := Ne.symm (hNE kv2 hkv2 kv hkv htr)
          exact step_noCreate (Or.inl rfl) (hK kv2 hkv2) hep hlp (Or.inr hne2) (hB htr)
      · have hkv2 : kv2 = kv := by simpa using hm2
        subst hkv2
        constructor
        · exact step_establishP2 (hK kv2 hkv) hep hlp x
        · intro htr
          exact step_establishP1 (hK kv2 hkv) hep hlp htr x
    have hall2 : (done ++ [kv]) ++ tbl2 = all := by
      rw [← hall]; simp
    exact ih (done ++ [kv]) (stepL x kv) hall2 hstep

theorem pass2 : ∀ tbl x, NoResidue tbl x → tbl.foldl stepL x = x := by
  intro tbl
  induction tbl with
  | nil =>
    intro x _
    rfl
  | cons kv tbl2 ih =>
    intro x hres
    obtain ⟨h2, h1⟩ := hres kv (List.mem_cons_self kv tbl2)
    have hstep : stepL x kv = x := by
      unfold stepL
      rcases eq_or_ne (escapeL kv.2) kv.1 with hself | htr
      · have hrw : mkRepl (escapeL kv.2) = mkPat '"' kv.1 := by
          rw [hself]; rfl
        rw [hrw]
        rw [replaceAll_self (mkPat_ne_nil '"' kv.1) x.length x (Nat.le_refl _)]
        exact replaceAll_noocc x.length x (Nat.le_refl _) h2
      · rw [replaceAll_noocc x.length x (Nat.le_refl _) (h1 htr)]
        exact replaceAll_noocc x.length x (Nat.le_refl _) h2
    rw [List.foldl_cons, hstep]
    exact ih x (fun kv2 hm => hres kv2 (List.mem_cons_of_mem kv hm))

/-! ### The table facts, checked by evaluation -/

set_option maxRecDepth 100000 in
theorem tableFacts1 : ∀ kv ∈ tableL, keyOk kv.1 = true := by decide

set_option maxRecDepth 100000 in
set_option maxHeartbeats 1600000 in
theorem tableFacts2 : ∀ kv ∈ tableL,
    escOk (escapeL kv.2) = true ∧ hasLP (escapeL kv.2) = false := by decide

set_option maxRecDepth 100000 in
set_option maxHeartbeats 16000000 in
theorem tableFacts3 : ∀ kv ∈ tableL, ∀ kv2 ∈ tableL,
    escapeL kv.2 ≠ kv.1 → escapeL kv2.2 ≠ kv.1 := by decide

/-! ### Idempotence of the whole substitution pass -/

theorem noResidue_updateL (c : List Char) : NoResidue tableL (updateL c) :=
  pass1 tableL
    (fun kv hm => keyProp_of_keyOk (tableFacts1 kv hm))
    (fun kv hm =>
      escProp_of_escOk (escapeL kv.2).length _ (Nat.le_refl _) (tableFacts2 kv hm).1)
    (fun kv hm =>
      noLP_of_hasLP (escapeL kv.2).length _ (Nat.le_refl _) (tableFacts2 kv hm).2)
    tableFacts3 tableL [] c rfl
    (fun kv hm => absurd hm (List.not_mem_nil kv))

theorem updateL_idem (c : List Char) : updateL (updateL c) = updateL c :=
  pass2 tableL (updateL c) (noResidue_updateL c)

theorem str_eq_of_data {s t : String} (h : s.data = t.data) : s = t := by
  cases s
  cases t
  congr 1

theorem foldl_data (l : List (String × String)) :
    ∀ s : String,
      (l.foldl (fun content kv =>
        strReplace (strReplace content (pattern1 kv.1) (replacementFor kv.2))
          (pattern2 kv.1) (replacementFor kv.2)) s).data
      = l.foldl (fun c kv => stepL c (kv.1.data, kv.2.data)) s.data := by
  induction l with
  | nil =>
    intro s
    rfl
  | cons kv l ih =>
    intro s
    rw [List.foldl_cons, List.foldl_cons, ih]
    rfl

theorem update_content_data (c : String) :
    (update_content c).data = updateL c.data := by
  unfold update_content updateL tableL
  rw [List.foldl_map]
  exact foldl_data key_mappings c

/-! ### Properties of the filesystem model -/

theorem processFiles_nil (fs : String → Except String String) :
    processFiles fs [] = (fs, []) := rfl

theorem processFiles_acc (L : List String) : ∀ fs l,
    L.foldl (fun acc p =>
        let r := update_file acc.1 p
        (r.1, acc.2 ++ r.2)) (fs, l)
      = ((processFiles fs L).1, l ++ (processFiles fs L).2) := by
  induction L with
  | nil =>
    intro fs l
    simp [processFiles]
  | cons q L ih =>
    intro fs l
    simp only [processFiles, List.foldl_cons]
    rw [ih, ih]
    simp [List.append_assoc]

theorem processFiles_cons (fs : String → Except String String) (q : String)
    (L : List String) :
    processFiles fs (q :: L)
      = ((processFiles (update_file fs q).1 L).1,
         (update_file fs q).2 ++ (processFiles (update_file fs q).1 L).2) := by
  simp only [processFiles, List.foldl_cons]
  rw [processFiles_acc]
  simp
  exact ⟨rfl, rfl⟩

theorem processFiles_append (fs : String → Except String String)
    (X Y : List String) :
    processFiles fs (X ++ Y)
      = ((processFiles (processFiles fs X).1 Y).1,
         (processFiles fs X).2 ++ (processFiles (processFiles fs X).1 Y).2) := by
  induction X generalizing fs with
  | nil => simp [processFiles_nil]
  | cons q X ih =>
    rw [List.cons_append, processFiles_cons, ih, processFiles_cons]
    simp [List.append_assoc]

theorem update_file_err {fs : String → Except String String} {p e : String}
    (h : fs p = Except.error e) :
    update_file fs p = (fs, [("Error updating ") ++ p ++ (": ") ++ e]) := by
  unfold update_file
  rw [h]

theorem update_file_ok_eq {fs : String → Except String String} {p c : String}
    (h : fs p = Except.ok c) (hc : update_content c = c) :
    update_file fs p = (fs, []) := by
  unfold update_file
  rw [h]
  simp [hc]

theorem update_file_ok_ne {fs : String → Except String String} {p c : String}
    (h : fs p = Except.ok c) (hc : update_content c ≠ c) :
    update_file fs p =
      (fun q => if q = p then Except.ok (update_content c) else fs q,
       [("Updated: ") ++ p]) := by
  unfold update_file
  rw [h]
  simp [hc]

theorem update_file_self (fs : String → Except String String) (p : String) :
    (update_file fs p).1 p = stepFile (fs p) := by
  cases hfs : fs p with
  | error e =>
    rw [update_file_err hfs]
    simp [stepFile, hfs]
  | ok c =>
    by_cases hc : update_content c = c
    · rw [update_file_ok_eq hfs hc]
      simp [stepFile, hfs, hc]
    · rw [update_file_ok_ne hfs hc]
      simp [stepFile]

theorem update_file_other {fs : String → Except String String} {p q : String}
    (h : q ≠ p) : (update_file fs p).1 q = fs q := by
  cases hfs : fs p with
  | error e => rw [update_file_err hfs]
  | ok c =>
    by_cases hc : update_content c = c
    · rw [update_file_ok_eq hfs hc]
    · rw [update_file_ok_ne hfs hc]
      simp [h]

theorem processFiles_err_pres : ∀ (L : List String)
    (fs : String → Except String String) {p e : String},
    fs p = Except.error e → (processFiles fs L).1 p = Except.error e := by
  intro L
  induction L with
  | nil =>
    intro fs p e h
    exact h
  | cons q L ih =>
    intro fs p e h
    rw [processFiles_cons]
    apply ih
    by_cases hpq : p = q
    · subst hpq
      rw [update_file_err h]
      exact h
    · rw [update_file_other hpq]
      exact h

theorem processFiles_char : ∀ (L : List String)
    (fs : String → Except String String) (p : String), L.Nodup →
    (processFiles fs L).1 p = if p ∈ L then stepFile (fs p) else fs p := by
  intro L
  induction L with
  | nil =>
    intro fs p _
    simp [processFiles_nil]
  | cons q L ih =>
    intro fs p hnd
    obtain ⟨hqL, hndL⟩ := List.nodup_cons.mp hnd
    rw [processFiles_cons]
    by_cases hpq : p = q
    · subst hpq
      rw [ih _ p hndL, if_neg hqL, update_file_self,
        if_pos (List.mem_cons_self p L)]
    · rw [ih _ p hndL, update_file_other hpq]
      simp [List.mem_cons, hpq]

/-! ### Exact replacement of a single occurrence in a pattern-free context

A call pattern can neither overlap the boundary of a block shaped like
`L(<d>token<d>)` (any pattern block or any replacement text) nor sit
strictly inside one, so the pass rewrites an isolated occurrence exactly
and touches nothing else. -/

theorem patSuf_vs_headL {d : Char} (hd : d = '"' ∨ d = '\'') {k : List Char}
    (hk : KeyProp k) :
    ∀ x, x ≠ [] → x <:+ mkPat d k → x ≠ mkPat d k →
      ∀ t : List Char, ¬ x <+: 'L' :: t ∧ ¬ 'L' :: t <+: x := by
  intro x hx hxq hne t
  have hxtail : x <:+ '(' :: d :: (k ++ [d, ')']) := by
    rcases List.suffix_cons_iff.mp hxq with h | h
    · exact absurd h hne
    · exact h
  obtain ⟨c, x', rfl⟩ := List.exists_cons_of_ne_nil hx
  have hcmem : c ∈ '(' :: d :: (k ++ [d, ')']) :=
    hxtail.subset (List.mem_cons_self c x')
  have hcne : c ≠ 'L' := mem_patTail_ne_L hd hk hcmem
  constructor
  · intro hpre
    exact hcne (List.cons_prefix_cons.mp hpre).1
  · intro hpre
    exact hcne (List.cons_prefix_cons.mp hpre).1.symm

theorem patPre_vs_tailParen {d : Char} (hd : d = '"' ∨ d = '\'') {k : List Char}
    (hk : KeyProp k) :
    ∀ y, y ≠ [] → y <+: mkPat d k → y ≠ mkPat d k →
      ∀ r0 : List Char, ¬ y <:+ r0 ++ [')'] := by
  intro y hy hpre hne r0 hsuf
  obtain ⟨w, hw⟩ := hsuf
  obtain ⟨y0, cy, rfl⟩ : ∃ y0 c, y = y0 ++ [c] := by
    rcases List.eq_nil_or_concat y with rfl | ⟨y0, c, hc⟩
    · exact absurd rfl hy
    · exact ⟨y0, c, by simpa [List.concat_eq_append] using hc⟩
  rw [← List.append_assoc] at hw
  have hinj := List.append_inj' hw (by simp)
  have hcy : cy = ')' := by simpa using hinj.2
  subst hcy
  obtain ⟨z, hz⟩ := hpre
  have hzne : z ≠ [] := by
    rintro rfl
    exact hne (by simpa using hz)
  obtain ⟨z0, cz, rfl⟩ : ∃ z0 c, z = z0 ++ [c] := by
    rcases List.eq_nil_or_concat z with rfl | ⟨z0, c, hc⟩
    · exact absurd rfl hzne
    · exact ⟨z0, c, by simpa [List.concat_eq_append] using hc⟩
  rw [mkPat_concat, ← List.append_assoc] at hz
  have hinj2 := List.append_inj' hz (by simp)
  have hmem : ')' ∈ 'L' :: '(' :: d :: (k ++ [d]) := by
    rw [← hinj2.1]; simp
  rcases List.mem_cons.mp hmem with h1 | h2
  · exact absurd h1 (by decide)
  rcases List.mem_cons.mp h2 with h3 | h4
  · exact absurd h3 (by decide)
  rcases List.mem_cons.mp h4 with h5 | h6
  · rcases hd with rfl | rfl <;> exact absurd h5 (by decide)
  rcases List.mem_append.mp h6 with h7 | h8
  · exact absurd (hk.2 _ h7) (by decide)
  · rcases hd with rfl | rfl <;> exact absurd h8 (by decide)

theorem mkPat_vs_mkPat {d d2 : Char} (hd : d = '"' ∨ d = '\'')
    (hd2 : d2 = '"' ∨ d2 = '\'') {k k2 : List Char}
    (hk : KeyProp k) (_hk2 : KeyProp k2) (hne : k2 ≠ k ∨ d2 ≠ d) :
    ¬ mkPat d2 k2 <:+: mkPat d k := by
  rintro ⟨a, b, hab⟩
  cases a with
  | nil =>
    simp only [List.nil_append, mkPat, List.cons_append] at hab
    injection hab with _ hab
    injection hab with _ hab
    injection hab with hdq hab
    have hkk : k2 ≠ k := by
      rcases hne with h | h
      · exact h
      · exact absurd hdq h
    subst hdq
    rw [List.append_assoc] at hab
    rcases List.append_eq_append_iff.mp hab with ⟨m, hm1, hm2⟩ | ⟨m, hm1, hm2⟩
    · cases m with
      | nil =>
        have hkv : k = k2 := by simpa using hm1
        exact hkk hkv.symm
      | cons cm m' =>
        simp only [List.cons_append] at hm2
        injection hm2 with hcm _
        subst hcm
        have hq : d2 ∈ k := by rw [hm1]; simp
        rcases hd2 with h | h <;> rw [h] at hq <;>
          exact absurd (hk.2 _ hq) (by decide)
    · have hlen := congrArg List.length hm2
      simp [List.length_append] at hlen
      have hm0 : m = [] := List.length_eq_zero.mp (by omega)
      subst hm0
      have hkv : k2 = k := by simpa using hm1
      exact hkk hkv
  | cons c a1 =>
    simp only [mkPat, List.cons_append, List.append_assoc] at hab
    injection hab with _ hab
    cases a1 with
    | nil =>
      simp only [List.nil_append] at hab
      injection hab with h1 _
      exact absurd h1 (by decide)
    | cons c2 a2 =>
      simp only [List.cons_append] at hab
      injection hab with _ hab
      cases a2 with
      | nil =>
        simp only [List.nil_append] at hab
        injection hab with h1 _
        rcases hd with rfl | rfl <;> exact absurd h1 (by decide)
      | cons c3 a3 =>
        simp only [List.cons_append] at hab
        injection hab with _ hab
        rcases List.append_eq_append_iff.mp hab with ⟨m, hm1, hm2⟩ | ⟨m, hm1, hm2⟩
        · cases m with
          | nil =>
            simp only [List.nil_append] at hm2
            injection hm2 with h1 _
            rcases hd with rfl | rfl <;> exact absurd h1 (by decide)
          | cons cm m' =>
            simp only [List.cons_append] at hm2
            injection hm2 with h1 _
            have hq : 'L' ∈ k := by rw [hm1, ← h1]; simp
            exact absurd (hk.2 _ hq) (by decide)
        · cases m with
          | nil =>
            simp only [List.nil_append] at hm2
            injection hm2 with h1 _
            rcases hd with rfl | rfl <;> exact absurd h1 (by decide)
          | cons cm m' =>
            simp only [List.cons_append] at hm2
            injection hm2 with _ hm2'
            have hlen := congrArg List.length hm2'
            simp [List.length_append] at hlen
            omega

theorem sandwich {d2 : Char} (hd2 : d2 = '"' ∨ d2 = '\'') {k2 : List Char}
    (hk2 : KeyProp k2) {M tM r0 a b : List Char}
    (hM1 : M = 'L' :: tM) (hM2 : M = r0 ++ [')'])
    (hMq : ¬ mkPat d2 k2 <:+: M)
    (ha : ¬ mkPat d2 k2 <:+: a) (hb : ¬ mkPat d2 k2 <:+: b) :
    ¬ mkPat d2 k2 <:+: a ++ M ++ b := by
  intro h
  rw [List.append_assoc] at h
  rcases append_inf_split h with h1 | h2 | ⟨y, z, hyz, hy, hz, hys, hzp⟩
  · exact ha h1
  · rcases append_inf_split h2 with h3 | h4 | ⟨y, z, hyz, hy, hz, hys, hzp⟩
    · exact hMq h3
    · exact hb h4
    · have hypre : y <+: mkPat d2 k2 := ⟨z, hyz⟩
      have hyneq : y ≠ mkPat d2 k2 := by
        intro he
        apply hz
        have hlen := congrArg List.length hyz
        rw [he, List.length_append] at hlen
        exact List.length_eq_zero.mp (by omega)
      rw [hM2] at hys
      exact patPre_vs_tailParen hd2 hk2 y hy hypre hyneq r0 hys
  · have hzsuf : z <:+ mkPat d2 k2 := ⟨y, hyz⟩
    have hzneq : z ≠ mkPat d2 k2 := by
      intro he
      apply hy
      have hlen := congrArg List.length hyz
      rw [he, List.length_append] at hlen
      exact List.length_eq_zero.mp (by omega)
    rcases append_pref_split hzp with h5 | ⟨z2, hz2, _⟩
    · rw [hM1] at h5
      exact (patSuf_vs_headL hd2 hk2 z hz hzsuf hzneq tM).1 h5
    · have h6 : 'L' :: tM <+: z := by
        rw [hz2, hM1]
        exact ⟨z2, rfl⟩
      exact (patSuf_vs_headL hd2 hk2 z hz hzsuf hzneq tM).2 h6

theorem replaceAll_mid {d : Char} {k : List Char} (hk : KeyProp k)
    (hd : d = '"' ∨ d = '\'') (r : List Char) :
    ∀ n a b, a.length ≤ n → ¬ mkPat d k <:+: a → ¬ mkPat d k <:+: b →
      replaceAll (mkPat d k) r (a ++ mkPat d k ++ b) = a ++ r ++ b := by
  intro n
  induction n with
  | zero =>
    intro a b ha0 _ hb
    have hanil : a = [] := List.length_eq_zero.mp (Nat.le_zero.mp ha0)
    subst hanil
    simp only [List.nil_append]
    rw [replaceAll_head r (mkPat_ne_nil d k) b,
      replaceAll_noocc b.length b (Nat.le_refl _) hb]
  | succ n ih =>
    intro a b halen ha hb
    cases a with
    | nil =>
      simp only [List.nil_append]
      rw [replaceAll_head r (mkPat_ne_nil d k) b,
        replaceAll_noocc b.length b (Nat.le_refl _) hb]
    | cons c a' =>
      have hshape : (c :: a') ++ mkPat d k ++ b = c :: (a' ++ mkPat d k ++ b) := by
        simp
      have hnp : ¬ mkPat d k <+: c :: (a' ++ mkPat d k ++ b) := by
        intro hpre
        have hpre2 : mkPat d k <+: (c :: a') ++ (mkPat d k ++ b) := by
          simpa [List.append_assoc] using hpre
        rcases append_pref_split hpre2 with h1 | ⟨z, hzq, hz⟩
        · exact ha h1.isInfix
        · rcases eq_or_ne z [] with rfl | hzne
          · apply ha
            rw [List.append_nil] at hzq
            rw [hzq]
          · have hzsuf : z <:+ mkPat d k := ⟨c :: a', hzq.symm⟩
            have hzneq : z ≠ mkPat d k := by
              intro he
              have hlen := congrArg List.length hzq
              rw [List.length_append, he, List.length_cons] at hlen
              omega
            rcases append_pref_split hz with h5 | ⟨z2, hz2, _⟩
            · have hL : mkPat d k = 'L' :: ('(' :: d :: (k ++ [d, ')'])) := rfl
              rw [hL] at h5
              exact (patSuf_vs_headL hd hk z hzne hzsuf hzneq _).1 h5
            · have h6 : (mkPat d k).length ≤ z.length := by
                rw [hz2, List.length_append]
                omega
              have h7 : z.length < (mkPat d k).length := by
                have hlen := congrArg List.length hzq
                rw [List.length_append, List.length_cons] at hlen
                omega
              omega
      rw [hshape, replaceAll_cons_neg r hnp]
      have ha' : ¬ mkPat d k <:+: a' := fun hi => ha (List.infix_cons hi)
      rw [ih a' b (by simpa using halen) ha' hb]
      simp

set_option maxRecDepth 100000 in
set_option maxHeartbeats 1600000 in
theorem keysNodup : (tableL.map Prod.fst).Nodup := by decide

theorem fold_keeps_block {d : Char} (hd : d = '"' ∨ d = '\'') {k : List Char}
    (hkp : KeyProp k) {a b : List Char} (ha : PatFree a) (hb : PatFree b) :
    ∀ pre : List (List Char × List Char),
      (∀ kv ∈ pre, kv ∈ tableL ∧ kv.1 ≠ k) →
      pre.foldl stepL (a ++ mkPat d k ++ b) = a ++ mkPat d k ++ b := by
  intro pre
  induction pre with
  | nil =>
    intro _
    rfl
  | cons kv pre2 ih =>
    intro hmem
    obtain ⟨hkvt, hkvne⟩ := hmem kv (List.mem_cons_self kv pre2)
    have hkp2 : KeyProp kv.1 := keyProp_of_keyOk (tableFacts1 kv hkvt)
    have hs1 : ¬ mkPat '"' kv.1 <:+: a ++ mkPat d k ++ b :=
      sandwich (Or.inl rfl) hkp2 rfl (mkPat_concat d k)
        (mkPat_vs_mkPat hd (Or.inl rfl) hkp hkp2 (Or.inl hkvne))
        (ha kv hkvt).1 (hb kv hkvt).1
    have hs2 : ¬ mkPat '\'' kv.1 <:+: a ++ mkPat d k ++ b :=
      sandwich (Or.inr rfl) hkp2 rfl (mkPat_concat d k)
        (mkPat_vs_mkPat hd (Or.inr rfl) hkp hkp2 (Or.inl hkvne))
        (ha kv hkvt).2 (hb kv hkvt).2
    have hstep : stepL (a ++ mkPat d k ++ b) kv = a ++ mkPat d k ++ b := by
      unfold stepL
      rw [replaceAll_noocc _ _ (Nat.le_refl _) hs1,
        replaceAll_noocc _ _ (Nat.le_refl _) hs2]
    rw [List.foldl_cons, hstep]
    exact ih (fun kv2 h2 => hmem kv2 (List.mem_cons_of_mem kv h2))

theorem step_replaces_block {d : Char} (hd : d = '"' ∨ d = '\'')
    {kv : List Char × List Char} (hkp : KeyProp kv.1)
    (hesc : EscProp (escapeL kv.2)) (hlp : NoLP (escapeL kv.2))
    {a b : List Char}
    (ha1 : ¬ mkPat '"' kv.1 <:+: a) (ha2 : ¬ mkPat '\'' kv.1 <:+: a)
    (hb1 : ¬ mkPat '"' kv.1 <:+: b) (hb2 : ¬ mkPat '\'' kv.1 <:+: b) :
    stepL (a ++ mkPat d kv.1 ++ b) kv = a ++ mkRepl (escapeL kv.2) ++ b := by
  unfold stepL
  rcases hd with rfl | rfl
  · rw [replaceAll_mid hkp (Or.inl rfl) (mkRepl (escapeL kv.2)) a.length a b
      (Nat.le_refl _) ha1 hb1]
    have hs2 : ¬ mkPat '\'' kv.1 <:+: a ++ mkRepl (escapeL kv.2) ++ b :=
      sandwich (Or.inr rfl) hkp rfl (mkRepl_concat (escapeL kv.2))
        (mkPat_notInf hkp hesc hlp (Or.inl rfl)) ha2 hb2
    rw [replaceAll_noocc _ _ (Nat.le_refl _) hs2]
  · have hs1 : ¬ mkPat '"' kv.1 <:+: a ++ mkPat '\'' kv.1 ++ b :=
      sandwich (Or.inl rfl) hkp rfl (mkPat_concat '\'' kv.1)
        (mkPat_vs_mkPat (Or.inr rfl) (Or.inl rfl) hkp hkp (Or.inr (by decide)))
        ha1 hb1
    rw [replaceAll_noocc _ _ (Nat.le_refl _) hs1]
    rw [replaceAll_mid hkp (Or.inr rfl) (mkRepl (escapeL kv.2)) a.length a b
      (Nat.le_refl _) ha2 hb2]

theorem fold_keeps_repl {v0 : List Char} (hesc0 : EscProp v0) (hlp0 : NoLP v0)
    {a b : List Char} (ha : PatFree a) (hb : PatFree b) :
    ∀ post : List (List Char × List Char),
      (∀ kv ∈ post, kv ∈ tableL) →
      (∀ kv ∈ post, kv.1 = v0 → escapeL kv.2 = kv.1) →
      post.foldl stepL (a ++ mkRepl v0 ++ b) = a ++ mkRepl v0 ++ b := by
  intro post
  induction post with
  | nil =>
    intro _ _
    rfl
  | cons kv post2 ih =>
    intro hmem hself
    have hkvt := hmem kv (List.mem_cons_self kv post2)
    have hkp : KeyProp kv.1 := keyProp_of_keyOk (tableFacts1 kv hkvt)
    have hs2 : ¬ mkPat '\'' kv.1 <:+: a ++ mkRepl v0 ++ b :=
      sandwich (Or.inr rfl) hkp rfl (mkRepl_concat v0)
        (mkPat_notInf hkp hesc0 hlp0 (Or.inl rfl)) (ha kv hkvt).2 (hb kv hkvt).2
    have hstep : stepL (a ++ mkRepl v0 ++ b) kv = a ++ mkRepl v0 ++ b := by
      unfold stepL
      rcases eq_or_ne kv.1 v0 with heq | hne
      · have hv : escapeL kv.2 = kv.1 := hself kv (List.mem_cons_self kv post2) heq
        have hpat : mkRepl (escapeL kv.2) = mkPat '"' kv.1 := by
          rw [hv]; rfl
        have hblock : a ++ mkRepl v0 ++ b = a ++ mkPat '"' kv.1 ++ b := by
          rw [heq]; rfl
        rw [hpat, hblock,
          replaceAll_self (mkPat_ne_nil '"' kv.1) _ _ (Nat.le_refl _)]
        rw [← hblock]
        exact replaceAll_noocc _ _ (Nat.le_refl _) hs2
      · have hs1 : ¬ mkPat '"' kv.1 <:+: a ++ mkRepl v0 ++ b :=
          sandwich (Or.inl rfl) hkp rfl (mkRepl_concat v0)
            (mkPat_notInf hkp hesc0 hlp0 (Or.inr hne)) (ha kv hkvt).1 (hb kv hkvt).1
        rw [replaceAll_noocc _ _ (Nat.le_refl _) hs1,
          replaceAll_noocc _ _ (Nat.le_refl _) hs2]
    rw [List.foldl_cons, hstep]
    exact ih (fun kv2 h2 => hmem kv2 (List.mem_cons_of_mem kv h2))
      (fun kv2 h2 => hself kv2 (List.mem_cons_of_mem kv h2))

theorem updateL_exact {d : Char} (hd : d = '"' ∨ d = '\'')
    (kv : List Char × List Char) (hmem : kv ∈ tableL)
    {a b : List Char} (ha : PatFree a) (hb : PatFree b) :
    updateL (a ++ mkPat d kv.1 ++ b) = a ++ mkRepl (escapeL kv.2) ++ b := by
  obtain ⟨pre, post, htab⟩ := List.append_of_mem hmem
  have hkp : KeyProp kv.1 := keyProp_of_keyOk (tableFacts1 kv hmem)
  have hesc : EscProp (escapeL kv.2) :=
    escProp_of_escOk (escapeL kv.2).length _ (Nat.le_refl _) (tableFacts2 kv hmem).1
  have hlp : NoLP (escapeL kv.2) :=
    noLP_of_hasLP (escapeL kv.2).length _ (Nat.le_refl _) (tableFacts2 kv hmem).2
  have hnod := keysNodup
  rw [htab, List.map_append, List.map_cons] at hnod
  have hdisj := (List.nodup_append.mp hnod).2.2
  have hpre_ne : ∀ kv2 ∈ pre, kv2.1 ≠ kv.1 := by
    intro kv2 h2 he
    exact hdisj (List.mem_map_of_mem Prod.fst h2)
      (by rw [he]; exact List.mem_cons_self _ _)
  have hpre_mem : ∀ kv2 ∈ pre, kv2 ∈ tableL := by
    intro kv2 h2
    rw [htab]
    exact List.mem_append_left _ h2
  have hpost_mem : ∀ kv2 ∈ post, kv2 ∈ tableL := by
    intro kv2 h2
    rw [htab]
    exact List.mem_append_right _ (List.mem_cons_of_mem _ h2)
  have hself : ∀ kv2 ∈ post, kv2.1 = escapeL kv.2 → escapeL kv2.2 = kv2.1 := by
    intro kv2 h2 heq
    by_contra hneq
    exact tableFacts3 kv2 (hpost_mem kv2 h2) kv hmem hneq heq.symm
  show tableL.foldl stepL _ = _
  rw [htab, List.foldl_append, List.foldl_cons]
  rw [fold_keeps_block hd hkp ha hb pre
    (fun kv2 h2 => ⟨hpre_mem kv2 h2, hpre_ne kv2 h2⟩)]
  rw [step_replaces_block hd hkp hesc hlp
    (ha kv hmem).1 (ha kv hmem).2 (hb kv hmem).1 (hb kv hmem).2]
  exact fold_keeps_repl hesc hlp ha hb post hpost_mem hself

theorem updateL_patFree {c : List Char} (hc : PatFree c) : updateL c = c := by
  have hgen : ∀ tbl : List (List Char × List Char),
      (∀ kv ∈ tbl, kv ∈ tableL) → tbl.foldl stepL c = c := by
    intro tbl
    induction tbl with
    | nil =>
      intro _
      rfl
    | cons kv tbl2 ih =>
      intro hmem
      have hkvt := hmem kv (List.mem_cons_self kv tbl2)
      have hstep : stepL c kv = c := by
        unfold stepL
        rw [replaceAll_noocc _ _ (Nat.le_refl _) (hc kv hkvt).1,
          replaceAll_noocc _ _ (Nat.le_refl _) (hc kv hkvt).2]
      rw [List.foldl_cons, hstep]
      exact ih (fun kv2 h2 => hmem kv2 (List.mem_cons_of_mem kv h2))
  exact hgen tableL (fun kv h => h)

theorem pattern1_data (k : String) : (pattern1 k).data = mkPat '"' k.data := rfl

theorem pattern2_data (k : String) : (pattern2 k).data = mkPat '\'' k.data := rfl

theorem replacementFor_data (v : String) :
    (replacementFor v).data = mkRepl (escapeL v.data) := rfl

/-! ### The claims -/

set_option maxRecDepth 200000
set_option maxHeartbeats 16000000

/-- Claim C1: for every file content and every `(old_key, new_value)`
pair, the rewriter replaces exactly the occurrences of `L("old_key")`
and `L('old_key')`: in any context `a ++ pattern ++ b` whose sides
contain no call pattern of any table key, the pass rewrites exactly that
occurrence to `L("escaped_new_value")` and leaves `a` and `b` untouched;
a content with no exact-key call pattern at all -- in particular one
whose quoted token merely extends a key, such as
`L("sent_payments_extra")` -- is left byte-for-byte unchanged; and
concretely `L("sent_payments")` becomes `L("Sent")`, `L("sent")`
independently becomes `L("Sent")`, and `L("sent_payments_extra")` is
preserved. -/
theorem claim_c1_exactness :
    (∀ (a b : String), ∀ kv ∈ key_mappings, PatFree a.data → PatFree b.data →
        update_content (a ++ pattern1 kv.1 ++ b) = a ++ replacementFor kv.2 ++ b ∧
        update_content (a ++ pattern2 kv.1 ++ b) = a ++ replacementFor kv.2 ++ b) ∧
    (∀ c : String, PatFree c.data → update_content c = c) ∧
    update_content ("Text(L(\"sent_payments\"))") = ("Text(L(\"Sent\"))") ∧
    update_content ("Text(L(\"sent\"))") = ("Text(L(\"Sent\"))") ∧
    update_content ("Text(L(\"sent_payments_extra\"))")
      = ("Text(L(\"sent_payments_extra\"))") := by
  refine ⟨?_, ?_, by decide, by decide, by decide⟩
  · intro a b kv hm ha hb
    have hmem : (kv.1.data, kv.2.data) ∈ tableL := List.mem_map_of_mem _ hm
    constructor
    · apply str_eq_of_data
      rw [update_content_data]
      have hdata : (a ++ pattern1 kv.1 ++ b).data
          = a.data ++ mkPat '"' kv.1.data ++ b.data := by
        simp [pattern1_data]
      rw [hdata, updateL_exact (Or.inl rfl) (kv.1.data, kv.2.data) hmem ha hb]
      simp [replacementFor_data]
    · apply str_eq_of_data
      rw [update_content_data]
      have hdata : (a ++ pattern2 kv.1 ++ b).data
          = a.data ++ mkPat '\'' kv.1.data ++ b.data := by
        simp [pattern2_data]
      rw [hdata, updateL_exact (Or.inr rfl) (kv.1.data, kv.2.data) hmem ha hb]
      simp [replacementFor_data]
  · intro c hc
    apply str_eq_of_data
    rw [update_content_data, updateL_patFree hc]

/-- Claim C2: the per-file transformation is idempotent: applying the
full substitution pass twice yields the same string as applying it once,
so a second run of the rewriter over an already-rewritten tree changes
no file content. -/
theorem claim_c2_idempotent (c : String) :
    update_content (update_content c) = update_content c := by
  apply str_eq_of_data
  rw [update_content_data, update_content_data, updateL_idem]

/-- Claim C3: every quote character inside an inserted value is
immediately preceded by a backslash (so the rewritten call stays a
single string-literal argument), and concretely the refund-explanation
message with embedded apostrophes is escaped on insertion. -/
theorem claim_c3_escaping :
    (∀ kv ∈ key_mappings, EscProp ((escaped_new_key kv.2).data)) ∧
    update_content ("L(\"refund_explanation\")")
      = ("L(\"These payments didn\\'t go through. Tap \\'Get Money Back\\' to return the funds to your Bitcoin wallet.\")") := by
  constructor
  · intro kv hm
    have hmem : (kv.1.data, kv.2.data) ∈ tableL := List.mem_map_of_mem _ hm
    exact escProp_of_escOk (escapeL kv.2.data).length _ (Nat.le_refl _)
      (tableFacts2 _ hmem).1
  · decide

/-- Claim C4: both quoting styles are rewritten to the double-quoted
form -- `L('receive')` and `L("receive")` both become `L("Receive")` --
and no single-quoted call pattern of any table key survives in any
output. -/
theorem claim_c4_quote_norm :
    update_content ("L('receive')") = ("L(\"Receive\")") ∧
    update_content ("L(\"receive\")") = ("L(\"Receive\")") ∧
    ∀ (c : String), ∀ kv ∈ key_mappings,
      ¬ mkPat '\'' kv.1.data <:+: (update_content c).data := by
  refine ⟨by decide, by decide, ?_⟩
  intro c kv hm
  have hmem : (kv.1.data, kv.2.data) ∈ tableL := List.mem_map_of_mem _ hm
  have h := (noResidue_updateL c.data (kv.1.data, kv.2.data) hmem).1
  rw [update_content_data]
  exact h

/-- Claim C5: a processed file is written back iff the transformed
content differs from the original: an unchanged file gets no write and
no `Updated:` line, a changed file is overwritten and logs exactly one
`Updated: <path>` line. -/
theorem claim_c5_write_iff_changed (fs : String → Except String String)
    (p c : String) (h : fs p = Except.ok c) :
    (update_content c = c → update_file fs p = (fs, [])) ∧
    (update_content c ≠ c →
      update_file fs p =
        (fun q => if q = p then Except.ok (update_content c) else fs q,
         [("Updated: ") ++ p])) :=
  ⟨fun hc => update_file_ok_eq h hc, fun hc => update_file_ok_ne h hc⟩

theorem claim_c5_witness :
    fsW ("Lumen/A.swift") = Except.ok ("L(\"send\")") ∧
    ((update_content ("L(\"send\")") = ("L(\"send\")") →
        update_file fsW ("Lumen/A.swift") = (fsW, [])) ∧
     (update_content ("L(\"send\")") ≠ ("L(\"send\")") →
        update_file fsW ("Lumen/A.swift") =
          (fun q => if q = ("Lumen/A.swift")
              then Except.ok (update_content ("L(\"send\")")) else fsW q,
           [("Updated: ") ++ ("Lumen/A.swift")]))) :=
  ⟨rfl, claim_c5_write_iff_changed fsW ("Lumen/A.swift") ("L(\"send\")") rfl⟩

/-- Claim C6: an error while processing one file is caught there, logs
one `Error updating <path>: <message>` line in place, and every other
file of the traversal is processed exactly as it would have been without
the failing file (same final filesystem, same other log lines). -/
theorem claim_c6_error_isolation (fs : String → Except String String)
    (A B : List String) (p e : String) (h : fs p = Except.error e) :
    processFiles fs (A ++ p :: B)
      = ((processFiles fs (A ++ B)).1,
         (processFiles fs A).2
           ++ (("Error updating ") ++ p ++ (": ") ++ e)
           :: (processFiles (processFiles fs A).1 B).2) ∧
    (processFiles fs (A ++ B)).2
      = (processFiles fs A).2 ++ (processFiles (processFiles fs A).1 B).2 := by
  have herr : (processFiles fs A).1 p = Except.error e :=
    processFiles_err_pres A fs h
  have hstep : update_file (processFiles fs A).1 p
      = ((processFiles fs A).1, [("Error updating ") ++ p ++ (": ") ++ e]) :=
    update_file_err herr
  constructor
  · rw [processFiles_append fs A (p :: B), processFiles_cons, hstep,
      processFiles_append fs A B]
    simp
  · rw [processFiles_append fs A B]

theorem claim_c6_witness :
    fsW ("Lumen/Bad.swift") = Except.error ("Permission denied") ∧
    (processFiles fsW (["Lumen/A.swift"] ++ ("Lumen/Bad.swift") :: ["Lumen/C.swift"])
      = ((processFiles fsW (["Lumen/A.swift"] ++ ["Lumen/C.swift"])).1,
         (processFiles fsW (["Lumen/A.swift"])).2
           ++ (("Error updating ") ++ ("Lumen/Bad.swift") ++ (": ")
                 ++ ("Permission denied"))
           :: (processFiles (processFiles fsW (["Lumen/A.swift"])).1
                 (["Lumen/C.swift"])).2) ∧
     (processFiles fsW (["Lumen/A.swift"] ++ ["Lumen/C.swift"])).2
      = (processFiles fsW (["Lumen/A.swift"])).2
          ++ (processFiles (processFiles fsW (["Lumen/A.swift"])).1
                (["Lumen/C.swift"])).2) :=
  ⟨rfl, claim_c6_error_isolation fsW (["Lumen/A.swift"]) (["Lumen/C.swift"])
    ("Lumen/Bad.swift") ("Permission denied") rfl⟩

/-- Claim C7: `update_file` is invoked on a file of the walked tree iff
its name ends with `.swift`; no other file is opened or modified. -/
theorem claim_c7_selection (walkOutput : List (String × List String))
    (p : String) :
    p ∈ selectedPaths walkOutput ↔
      ∃ rd, rd ∈ walkOutput ∧ ∃ f, f ∈ rd.2 ∧
        endswith f (".swift") = true ∧ p = rd.1 ++ ("/") ++ f := by
  unfold selectedPaths
  simp only [List.mem_flatMap, List.mem_map, List.mem_filter]
  constructor
  · rintro ⟨rd, hrd, f, ⟨hf, hsw⟩, rfl⟩
    exact ⟨rd, hrd, f, hf, hsw, rfl⟩
  · rintro ⟨rd, hrd, f, hf, hsw, rfl⟩
    exact ⟨rd, hrd, f, ⟨hf, hsw⟩, rfl⟩

/-- Claim C8: the resulting state of every file is deterministic and
independent of traversal order: processing the same duplicate-free set
of paths in any order yields the same final state at every path, since
each file's result is a function of its own content only. -/
theorem claim_c8_order_det (fs : String → Except String String)
    (L1 L2 : List String) (p : String) (hperm : L1.Perm L2)
    (hnd : L1.Nodup) :
    (processFiles fs L1).1 p = (processFiles fs L2).1 p := by
  rw [processFiles_char L1 fs p hnd, processFiles_char L2 fs p (hperm.nodup hnd)]
  by_cases hp : p ∈ L1
  · rw [if_pos hp, if_pos (hperm.mem_iff.mp hp)]
  · rw [if_neg hp, if_neg (fun hx => hp (hperm.mem_iff.mpr hx))]

theorem claim_c8_witness :
    (["Lumen/A.swift", "Lumen/C.swift"] : List String).Perm
      (["Lumen/C.swift", "Lumen/A.swift"]) ∧
    (["Lumen/A.swift", "Lumen/C.swift"] : List String).Nodup ∧
    (processFiles fsW (["Lumen/A.swift", "Lumen/C.swift"])).1 ("Lumen/A.swift")
      = (processFiles fsW (["Lumen/C.swift", "Lumen/A.swift"])).1
          ("Lumen/A.swift") :=
  ⟨by decide, by decide,
   claim_c8_order_det fsW (["Lumen/A.swift", "Lumen/C.swift"])
     (["Lumen/C.swift", "Lumen/A.swift"]) ("Lumen/A.swift")
     (by decide) (by decide)⟩

/-- Claim C9: the table sends `place_singular` to the empty string, so
both quoting styles of that call are rewritten to the empty-argument
call `L("")`. -/
theorem claim_c9_empty_value :
    (("place_singular", "") ∈ key_mappings) ∧
    update_content ("L(\"place_singular\")") = ("L(\"\")") ∧
    update_content ("L('place_singular')") = ("L(\"\")") := by
  refine ⟨by decide, by decide, by decide⟩

/-- Claim C10: the rewrite is not injective: `open_settings` and
`open_settings_button` both map to `Open Settings`, `sent` and
`sent_payments` both map to `Sent`, so distinct contents collide and no
inverse exists. -/
theorem claim_c10_not_injective :
    update_content ("L(\"open_settings\")") = ("L(\"Open Settings\")") ∧
    update_content ("L(\"open_settings_button\")") = ("L(\"Open Settings\")") ∧
    update_content ("L(\"sent\")") = ("L(\"Sent\")") ∧
    update_content ("L(\"sent_payments\")") = ("L(\"Sent\")") ∧
    ¬ Function.Injective update_content := by
  have ha : update_content ("L(\"open_settings\")") = ("L(\"Open Settings\")") := by
    decide
  have hb : update_content ("L(\"open_settings_button\")")
      = ("L(\"Open Settings\")") := by decide
  have hc : update_content ("L(\"sent\")") = ("L(\"Sent\")") := by decide
  have hd : update_content ("L(\"sent_payments\")") = ("L(\"Sent\")") := by decide
  refine ⟨ha, hb, hc, hd, ?_⟩
  intro hinj
  have heq := hinj (ha.trans hb.symm)
  exact absurd heq (by decide)

end Lumen
